import Mathlib

/-!
# Verification of the SmartHire retrieval-and-ranking core

Shallow embedding of the scoring, ranking, extraction-blending and
course-recommendation code of the repository (files `job_matcher.py`,
`rag.py`, `resume_parser.py`, `app.py`, `course_recommender.py`).

Strings are modelled as lists of Unicode code points (`Codes := List ℕ`),
Python floats as exact rationals, machine integers as `ℤ`/`ℕ`.  Python's
`round` (banker's rounding, ties to even) is modelled exactly on `ℚ`.
Character classes (`\s`, `\w`, `[a-zA-Z]`) are modelled over their ASCII
meaning, which is the range exercised by the code's own vocabulary and
patterns.
-/

set_option allowUnsafeReducibility true

/-- Strings as lists of code points. -/
abbrev Codes := List ℕ

/-- Code-point list of a Lean string literal (used for concrete inputs). -/
def toCodes (s : String) : Codes := s.data.map Char.toNat

/-- Python `\s` / `str.strip` whitespace over ASCII: space, TAB, LF, CR, VT, FF. -/
def isSpace (c : ℕ) : Bool :=
  c == 32 || c == 9 || c == 10 || c == 13 || c == 11 || c == 12

/-- ASCII decimal digit (`\d`). -/
def isDigit (c : ℕ) : Bool := 48 ≤ c && c ≤ 57

/-- ASCII letter (`[a-zA-Z]`). -/
def isLetter (c : ℕ) : Bool := (65 ≤ c && c ≤ 90) || (97 ≤ c && c ≤ 122)

/-- Python regex `\w` over ASCII: letters, digits, underscore. -/
def isWordChar (c : ℕ) : Bool := isLetter c || isDigit c || c == 95

/-- Python `str.lower` on one code point (ASCII range, the range the code uses). -/
def pyLower (c : ℕ) : ℕ := if 65 ≤ c ∧ c ≤ 90 then c + 32 else c

/-- Python `str.lower` on a string. -/
def lowerStr (s : Codes) : Codes := s.map pyLower

/-- Python `str.strip()`: drop leading and trailing whitespace. -/
def pyStrip (s : Codes) : Codes :=
  ((s.dropWhile isSpace).reverse.dropWhile isSpace).reverse

/-- Worker for whitespace-run collapsing: the flag records whether the
previously emitted character was the collapsed space of a still-open run. -/
def collapseAux : Bool → Codes → Codes
  | _, [] => []
  | b, c :: cs =>
    if isSpace c then
      if b then collapseAux true cs else 32 :: collapseAux true cs
    else c :: collapseAux false cs

/-- Model of `re.sub(r"\s+", " ", s)`: every maximal whitespace run becomes one space. -/
def collapseWs (s : Codes) : Codes := collapseAux false s

/-- Worker for `str.split()`: accumulates the current word reversed. -/
def splitWsAux : Codes → Codes → List Codes
  | cur, [] => if cur = [] then [] else [cur.reverse]
  | cur, c :: cs =>
    if isSpace c then
      if cur = [] then splitWsAux [] cs else cur.reverse :: splitWsAux [] cs
    else splitWsAux (c :: cur) cs

/-- Python `str.split()` (no arguments): whitespace-delimited words, no empties. -/
def splitWs (s : Codes) : List Codes := splitWsAux [] s

/-- Test that the second list starts with the first. -/
def leadsWith : Codes → Codes → Bool
  | [], _ => true
  | _ :: _, [] => false
  | a :: as_, b :: bs => a == b && leadsWith as_ bs

/-- Python `p in t` substring test. -/
def hasSub (p : Codes) : Codes → Bool
  | [] => leadsWith p []
  | c :: cs => leadsWith p (c :: cs) || hasSub p cs

/-- Fueled worker for `str.replace`; fuel bounds the number of scanned
positions, `t.length` always suffices. -/
def replaceAllAux (p r : Codes) : ℕ → Codes → Codes
  | 0, t => t
  | _ + 1, [] => []
  | fuel + 1, c :: cs =>
    if p ≠ [] ∧ leadsWith p (c :: cs) then
      r ++ replaceAllAux p r fuel (List.drop p.length (c :: cs))
    else c :: replaceAllAux p r fuel cs

/-- Python `t.replace(p, r)` for a nonempty pattern `p` (identity on empty `p`,
which the code never passes). -/
def replaceAll (p r t : Codes) : Codes := replaceAllAux p r t.length t

/-- One-element-or-end test used for regex boundary conditions on the
character that follows a match. -/
def okAfter (ok : ℕ → Bool) : Option ℕ → Bool
  | none => true
  | some c => ok c

/-- Occurrence scan with context: does `v` occur in the remaining text such
that the character before the occurrence satisfies `okL` (vacuously at the
start) and the one after satisfies `okR` (vacuously at the end)?  `prev` is
the character just before the remaining text. -/
def occursWith (okL okR : ℕ → Bool) (v : Codes) : Option ℕ → Codes → Bool
  | prev, c :: cs =>
    (okAfter okL prev && leadsWith v (c :: cs) &&
      okAfter okR ((c :: cs).drop v.length).head?) ||
    occursWith okL okR v (some c) cs
  | _, [] => false

/-- Stable insertion into a descending-by-key list: the new element goes
before the first strictly-smaller key and after equal keys already present
(matching Python's stable `list.sort(reverse=True)` built structurally). -/
def insertKeyDesc {α : Type} (key : α → ℚ) (x : α) : List α → List α
  | [] => [x]
  | y :: ys => if key y ≤ key x then x :: y :: ys else y :: insertKeyDesc key x ys

/-- Stable sort by descending key, as Python's stable `sort` with
`reverse=True` (ties keep input order). -/
def sortKeyDesc {α : Type} (key : α → ℚ) : List α → List α
  | [] => []
  | x :: xs => insertKeyDesc key x (sortKeyDesc key xs)

/-- Lexicographic `≤` on code-point strings — Python's string order. -/
def lexLe : Codes → Codes → Bool
  | [], _ => true
  | _ :: _, [] => false
  | a :: as_, b :: bs => if a < b then true else if b < a then false else lexLe as_ bs

/-- Insertion for lexicographic ascending sort. -/
def insertLex (x : Codes) : List Codes → List Codes
  | [] => [x]
  | y :: ys => if lexLe x y then x :: y :: ys else y :: insertLex x ys

/-- Python `sorted(...)` on strings: ascending lexicographic insertion sort. -/
def sortLex : List Codes → List Codes
  | [] => []
  | x :: xs => insertLex x (sortLex xs)

/-- Deduplication keeping the FIRST occurrence (Python `set`/`dict`
insertion order where it matters). -/
def firstDedupAux {α : Type} [DecidableEq α] : List α → List α → List α
  | _, [] => []
  | seen, x :: xs =>
    if x ∈ seen then firstDedupAux seen xs else x :: firstDedupAux (x :: seen) xs

/-- Deduplication keeping first occurrences. -/
def firstDedup {α : Type} [DecidableEq α] (l : List α) : List α := firstDedupAux [] l

/-- Python `min` over a list (callers only use it on nonempty lists). -/
def listMin : List ℚ → ℚ
  | [] => 0
  | x :: xs => xs.foldl min x

/-- Python `max` over a list (callers only use it on nonempty lists). -/
def listMax : List ℚ → ℚ
  | [] => 0
  | x :: xs => xs.foldl max x

/-- Floor of a rational, computed explicitly (`Int.fdiv` rounds toward
negative infinity, and a rational's denominator is positive). -/
def ratFloor (q : ℚ) : ℤ := Int.fdiv q.num (q.den : ℤ)

/-- Python 3 `round` to an integer on exact rationals: nearest integer,
ties to the even neighbour (banker's rounding). -/
def pyRound (q : ℚ) : ℤ :=
  let f := ratFloor q
  let r := q - (f : ℚ)
  if r < 1 / 2 then f
  else if 1 / 2 < r then f + 1
  else if f % 2 = 0 then f else f + 1

/-- Head-character-is-whitespace test. -/
def headIsSpace (l : Codes) : Bool :=
  match l.head? with
  | some c => isSpace c
  | none => false

/-- Last-character-is-whitespace test. -/
def lastIsSpace (l : Codes) : Bool :=
  match l.getLast? with
  | some c => isSpace c
  | none => false

/-! ## Entity extraction (`resume_parser.py`) -/

/-- Model of `_normalize_skill`: `re.sub(r"\s+", " ", s.strip().lower())`. -/
def normalizeSkill (s : Codes) : Codes := collapseWs (lowerStr (pyStrip s))

/-- Model of the `ALIASES` table of `resume_parser.py`, in source order. -/
def aliasTable : List (Codes × Codes) :=
  [ (toCodes "js", toCodes "javascript"), (toCodes "node", toCodes "node.js"),
    (toCodes "nodejs", toCodes "node.js"), (toCodes "ts", toCodes "typescript"),
    (toCodes "tf", toCodes "tensorflow"), (toCodes "sklearn", toCodes "scikit-learn"),
    (toCodes "pyspark", toCodes "spark"), (toCodes "postgres", toCodes "postgresql"),
    (toCodes "mongodb", toCodes "mongodb"), (toCodes "reactjs", toCodes "react"),
    (toCodes "gitlab ci", toCodes "ci"), (toCodes "github actions", toCodes "ci"),
    (toCodes "ci/cd", toCodes "ci"), (toCodes "oop", toCodes "object oriented programming"),
    (toCodes "nlp", toCodes "nlp"), (toCodes "cv", toCodes "computer vision"),
    (toCodes "k8s", toCodes "kubernetes") ]

/-- Model of Python's `ALIASES.get(t, t)`. -/
def aliasGet (t : Codes) : Codes :=
  match aliasTable.find? (fun kv => kv.1 == t) with
  | some kv => kv.2
  | none => t

/-- Model of `_canon_skill`: normalize, then resolve through the alias table. -/
def canonSkill (s : Codes) : Codes :=
  let s2 := normalizeSkill s
  if s2 = [] then [] else aliasGet s2

/-- Model of `_load_skill_vocab`.  The repository contains no
`data/jobs.csv`, so the CSV read raises and only the curated fallback list
populates the vocabulary (each entry passed through `_normalize_skill`,
set membership modelled by list membership). -/
def skillVocab : List Codes :=
  [ toCodes "python", toCodes "java", toCodes "javascript", toCodes "typescript",
    toCodes "react", toCodes "redux", toCodes "node.js", toCodes "nodejs",
    toCodes "express", toCodes "html", toCodes "css", toCodes "flask",
    toCodes "django", toCodes "sql", toCodes "postgresql", toCodes "mysql",
    toCodes "mongodb", toCodes "aws", toCodes "gcp", toCodes "azure",
    toCodes "docker", toCodes "kubernetes", toCodes "linux", toCodes "git",
    toCodes "ci", toCodes "cd", toCodes "ci/cd", toCodes "rest",
    toCodes "restful apis", toCodes "graphql", toCodes "pandas", toCodes "numpy",
    toCodes "scikit-learn", toCodes "sklearn", toCodes "tensorflow",
    toCodes "pytorch", toCodes "nlp", toCodes "computer vision", toCodes "opencv",
    toCodes "data analysis", toCodes "etl", toCodes "airflow", toCodes "spark",
    toCodes "hadoop", toCodes "tableau", toCodes "power bi", toCodes "agile",
    toCodes "scrum", toCodes "jira", toCodes "communication", toCodes "leadership"
  ].map normalizeSkill

/-- Heading keywords of `_split_sections`, in source order. -/
def headingsList : List Codes :=
  [ toCodes "skills", toCodes "technical skills", toCodes "tech skills",
    toCodes "core competencies", toCodes "competencies", toCodes "tech stack",
    toCodes "tools", toCodes "experience", toCodes "work experience",
    toCodes "professional experience", toCodes "employment history",
    toCodes "projects", toCodes "education", toCodes "certifications",
    toCodes "achievements", toCodes "summary", toCodes "objective" ]

/-- Tail check of the heading regex `\b\s*[:\-]*\s*$`: after the heading
word the line may hold only whitespace, then colons/dashes, then whitespace. -/
def headingTailOk (r : Codes) : Bool :=
  ((r.dropWhile isSpace).dropWhile (fun c => c == 58 || c == 45)).dropWhile isSpace == []

/-- Does a whole line match the heading regex
`^(h1|h2|…)\b\s*[:\-]*\s*$` (case-insensitive)?  Returns the (lowercase)
heading that matched.  No heading is a prefix of another, so at most one
alternative can match a given line. -/
def matchesHeading (line : Codes) : Option Codes :=
  headingsList.find? (fun h =>
    leadsWith h (lowerStr line) && headingTailOk ((lowerStr line).drop h.length))

/-- Worker of `_split_sections` over the list of lines of the text.
The flag records whether the current section started right after a heading
line (its slice then begins with the newline that closed the heading line);
`acc` holds the lines accumulated for the current section.  Chunks are
emitted as (name, text-slice) pairs exactly as the source slices
`text[last_pos:m.start()]` and the final `text[last_pos:]`. -/
def splitSectionsAux (curName : Codes) (leadNl : Bool) (acc : List Codes) :
    List Codes → List (Codes × Codes)
  | [] =>
    [(curName,
      if leadNl then (acc.map (fun l => [10] ++ l)).flatten
      else List.intercalate [10] acc)]
  | l :: rest =>
    match matchesHeading l with
    | some h =>
      (curName,
        if leadNl then (acc.map (fun l2 => [10] ++ l2)).flatten ++ [10]
        else (acc.map (fun l2 => l2 ++ [10])).flatten) ::
      splitSectionsAux h true [] rest
    | none => splitSectionsAux curName leadNl (acc ++ [l]) rest

/-- Model of `_split_sections`: empty text gives no sections; otherwise the
text (split at newlines) is carved at heading lines, starting in the
`preamble` section. -/
def splitSections (text : Codes) : List (Codes × Codes) :=
  if text = [] then []
  else splitSectionsAux (toCodes "preamble") false [] (text.splitOn 10)

/-- Dictionary view of the section list: Python accumulates
`sections.get(name,'') + chunk`, so a repeated name concatenates its
chunks in encounter order. -/
def secGet (sections : List (Codes × Codes)) (name : Codes) : Option Codes :=
  match sections.filter (fun kv => kv.1 == name) with
  | [] => none
  | l => some ((l.map (fun kv => kv.2)).flatten)

/-- Separator characters of `SEPARATORS` (commas, semicolons, slashes,
pipes, bullet characters), plus the newline the split pattern appends. -/
def isSepChar (c : ℕ) : Bool :=
  c == 44 || c == 59 || c == 47 || c == 124 || c == 0x2022 || c == 0x2023 ||
  c == 0x25E6 || c == 0x2043 || c == 0x2219 || c == 0xB7 || c == 10

/-- Model of `re.split` on single separator characters, keeping empty pieces
(the caller filters them). -/
def splitPredAux (p : ℕ → Bool) : Codes → Codes → List Codes
  | cur, [] => [cur.reverse]
  | cur, c :: cs =>
    if p c then cur.reverse :: splitPredAux p [] cs else splitPredAux p (c :: cur) cs

/-- Model of `_extract_skills_from_section`.  The `difflib.get_close_matches`
fuzzy lookup (cutoff 0.88, over a set whose iteration order Python does not
fix) is passed in as the oracle `closeM`: `closeM c = some m` models a hit
with best match `m`, `none` models no close match. -/
def extractSkillsFromSection (closeM : Codes → Option Codes) (txt : Codes) :
    List Codes :=
  if txt = [] then []
  else
    let parts := (splitPredAux isSepChar [] txt).filterMap
      (fun x => let t := pyStrip x; if x = [] ∨ t = [] then none else some t)
    parts.filterMap (fun p =>
      let c := canonSkill p
      if c = [] then none
      else if c ∈ skillVocab then some c
      else match closeM c with
        | some m => some m
        | none => some c)

/-- Left/right context check of the single-token scan regex
`(?<![\w\-])v(?![\w\-])`. -/
def notWordHyphen (c : ℕ) : Bool := !(isWordChar c || c == 45)

/-- Multi-word phase of `_scan_text_for_skills`: phrases found as substrings
are collected and blanked out of the scan buffer (`t.replace(phrase, ' ')`). -/
def scanMultiAux : List Codes → (List Codes × Codes) → (List Codes × Codes)
  | [], st => st
  | phrase :: more, (found, t) =>
    if hasSub phrase t then scanMultiAux more (found ++ [phrase], replaceAll phrase [32] t)
    else scanMultiAux more (found, t)

/-- Model of `_scan_text_for_skills`: pad and lowercase the text, blank out
multi-word vocabulary phrases longest-first (Python's stable
`sorted(key=len, reverse=True)` over the phrases), then scan the remaining
buffer for single-token vocabulary entries with the
`(?<![\w\-])…(?![\w\-])` context. -/
def scanTextForSkills (txt : Codes) : List Codes :=
  if txt = [] then []
  else
    let t0 := [32] ++ lowerStr txt ++ [32]
    let multi := sortKeyDesc (fun v => ((List.length v : ℕ) : ℚ))
      (skillVocab.filter (fun v => 32 ∈ v))
    let st := scanMultiAux multi ([], t0)
    let singles := (skillVocab.filter (fun v => ¬ (32 ∈ v))).filter
      (fun v => occursWith notWordHyphen notWordHyphen v none st.2)
    st.1 ++ singles

/-- Education pattern `b\.?tech|bachelor|b\.sc|bs\b` searched
case-insensitively (the text is lowercased before the search). -/
def eduHit1 (t : Codes) : Bool :=
  hasSub (toCodes "btech") t || hasSub (toCodes "b.tech") t ||
  hasSub (toCodes "bachelor") t || hasSub (toCodes "b.sc") t ||
  occursWith (fun _ => true) (fun c => !isWordChar c) (toCodes "bs") none t

/-- Education pattern `m\.?tech|master|m\.sc|ms\b`. -/
def eduHit2 (t : Codes) : Bool :=
  hasSub (toCodes "mtech") t || hasSub (toCodes "m.tech") t ||
  hasSub (toCodes "master") t || hasSub (toCodes "m.sc") t ||
  occursWith (fun _ => true) (fun c => !isWordChar c) (toCodes "ms") none t

/-- Education pattern `phd|doctorate`. -/
def eduHit3 (t : Codes) : Bool :=
  hasSub (toCodes "phd") t || hasSub (toCodes "doctorate") t

/-- Education entries appended by `_local_extract_entities`: the raw pattern
with its backslashes removed (`p.replace('\\', '')`). -/
def eduEntries (text : Codes) : List Codes :=
  (if eduHit1 (lowerStr text) then [toCodes "b.?tech|bachelor|b.sc|bsb"] else []) ++
  (if eduHit2 (lowerStr text) then [toCodes "m.?tech|master|m.sc|msb"] else []) ++
  (if eduHit3 (lowerStr text) then [toCodes "phd|doctorate"] else [])

/-- Match attempt of `\d+\+?\s*(years|yrs)\b` at the head of `t` (already
lowercased): digits, an optional plus, whitespace, then `years` or `yrs`
followed by a non-word character or the end. -/
def expAt (t : Codes) : Bool :=
  let ds := t.takeWhile isDigit
  if ds = [] then false
  else
    let r1 := t.drop ds.length
    let r2 := if r1.head? == some 43 then r1.drop 1 else r1
    let r3 := r2.dropWhile isSpace
    (leadsWith (toCodes "years") r3 &&
      okAfter (fun c => !isWordChar c) ((r3.drop 5).head?)) ||
    (leadsWith (toCodes "yrs") r3 &&
      okAfter (fun c => !isWordChar c) ((r3.drop 3).head?))

/-- Scan of one line for `\b(\d+\+?\s*(years|yrs))\b` (case-insensitive):
the leading `\b` requires the previous character to be a non-word character
(the match starts with a digit, a word character). -/
def expScan : Option ℕ → Codes → Bool
  | prev, c :: cs =>
    (okAfter (fun p => !isWordChar p) prev && expAt (c :: cs)) ||
    expScan (some c) cs
  | _, [] => false

/-- A line of the text contributes an experience entry iff the
`N years/yrs` pattern occurs in it. -/
def expLineHit (line : Codes) : Bool := expScan none (lowerStr line)

/-- Continuation class `[a-zA-Z\-\+\.]` of the keyword token regex. -/
def isKwChar (c : ℕ) : Bool := isLetter c || c == 45 || c == 43 || c == 46

/-- Fueled scanner for `re.findall(r"[a-zA-Z][a-zA-Z\-\+\.]{1,}", t)`:
at a letter, the greedy continuation must supply at least one more
character; otherwise scanning moves one position on.  Fuel bounds scanned
positions; `t.length` suffices. -/
def kwScanAux : ℕ → Codes → List Codes
  | 0, _ => []
  | _ + 1, [] => []
  | fuel + 1, c :: cs =>
    if isLetter c then
      let run := cs.takeWhile isKwChar
      if run = [] then kwScanAux fuel cs
      else (c :: run) :: kwScanAux fuel (cs.drop run.length)
    else kwScanAux fuel cs

/-- Keyword tokens of a text (the source scans the lowercased text). -/
def kwTokens (t : Codes) : List Codes := kwScanAux t.length t

/-- Stopword list of `_local_extract_entities`. -/
def stopWords : List Codes :=
  [ toCodes "the", toCodes "and", toCodes "for", toCodes "with", toCodes "from",
    toCodes "this", toCodes "that", toCodes "have", toCodes "has", toCodes "are",
    toCodes "was", toCodes "were", toCodes "your", toCodes "their", toCodes "our",
    toCodes "you", toCodes "in", toCodes "on", toCodes "to", toCodes "of",
    toCodes "as", toCodes "by", toCodes "an", toCodes "a" ]

/-- Top-30 frequent keywords: frequency table in first-occurrence order
(Python dict insertion order), stably sorted by descending count. -/
def topKeywords (text : Codes) : List Codes :=
  let toks := (kwTokens (lowerStr text)).filter (fun w => ¬ (w ∈ stopWords))
  let pairs := (firstDedup toks).map (fun w => (w, toks.count w))
  ((sortKeyDesc (fun p => ((p.2 : ℕ) : ℚ)) pairs).take 30).map (fun p => p.1)

/-- Structured entity record (`ParsedDocument` shape): the four lists every
extraction path returns. -/
structure Entities where
  skills : List Codes
  experience : List Codes
  education : List Codes
  keywords : List Codes
deriving DecidableEq, Repr

/-- Canonical empty-entity result. -/
def emptyEntities : Entities := ⟨[], [], [], []⟩

/-- Section keys preferred for skill extraction, in source order. -/
def skillSectionKeys : List Codes :=
  [ toCodes "skills", toCodes "technical skills", toCodes "tech skills",
    toCodes "core competencies", toCodes "competencies", toCodes "tech stack",
    toCodes "tools" ]

/-- Model of `_local_extract_entities`.  The optional spaCy enhancement is
modelled as unavailable (its `try` block is best-effort and silently skipped
when the library or model cannot load); the `difflib` fuzzy matcher is the
oracle `closeM` as in `extractSkillsFromSection`. -/
def localExtractEntities (closeM : Codes → Option Codes) (text : Codes) :
    Entities :=
  if text = [] then emptyEntities
  else
    let sections := splitSections text
    let fromSections :=
      (skillSectionKeys.filterMap (secGet sections)).map
        (extractSkillsFromSection closeM)
    let found := fromSections.flatten ++ scanTextForSkills text
    let exp := (text.splitOn 10).filterMap (fun line =>
      if expLineHit line then some ((pyStrip line).take 200) else none)
    { skills := sortLex (firstDedup ((found.filter (fun s => s ≠ [])).map canonSkill)),
      experience := exp.take 20,
      education := (eduEntries text).take 10,
      keywords := topKeywords text }

/-- Blending step of `extract_resume_entities` (lines 352–359): skills are
the sorted union of the normalized local and remote skills; experience und
education keep the remote lists capped at 30/20; keywords prefer the remote
list, then the local one, capped at 50. -/
def blendEntities (parsed loc : Entities) : Entities :=
  { skills := sortLex (firstDedup
      (loc.skills.map normalizeSkill ++ parsed.skills.map normalizeSkill)),
    experience := parsed.experience.take 30,
    education := parsed.education.take 20,
    keywords := (if parsed.keywords = [] then loc.keywords else parsed.keywords).take 50 }

/-- Model of `extract_resume_entities` on the remote-credentialed path (a
`GEMINI_API_KEY` is configured, so the local-only shortcut is not taken).
Parameters model the external world: `cached` the disk-cache lookup,
`status` the HTTP status of the remote call, `payload` the parsed
fixed-schema response (`none` models a missing text part, malformed JSON, or
a network error — each of those paths returns the canonical empty shape),
`llmOnly` the `PARSE_WITH_LLM_ONLY` flag.  Cache writes have no effect on
the returned value and are not modelled. -/
def extractResumeEntities (closeM : Codes → Option Codes)
    (cached : Option Entities) (status : ℕ) (payload : Option Entities)
    (llmOnly : Bool) (text : Codes) : Entities :=
  if text = [] then emptyEntities
  else
    match cached with
    | some c => c
    | none =>
      if status ≠ 200 then emptyEntities
      else
        match payload with
        | none => emptyEntities
        | some parsed =>
          if llmOnly then parsed
          else blendEntities parsed (localExtractEntities closeM text)

/-! ## Composite scoring (`job_matcher.py` and `app.py`) -/

/-- Resume-side entity dictionary as `_local_match` reads it. -/
structure ResumeInfo where
  skills : List Codes
  education : List Codes
  experience : List Codes
deriving DecidableEq, Repr

/-- Job-side entity dictionary as `_local_match` reads it. -/
structure JdInfo where
  skills : List Codes
  description : Codes
deriving DecidableEq, Repr

/-- List-comprehension filter `[s.strip() for s in l if s and s.strip()]`:
keep the stripped entry when the entry and its strip are nonempty (an empty
entry strips to the empty string, so one test suffices). -/
def stripNonempty (s : Codes) : Option Codes :=
  let t := pyStrip s
  if t = [] then none else some t

/-- Coverage of `_local_match` (lines 21–25): normalized resume and job
skill SETS, `|rs ∩ js| / |js|`, and `0.0` when the job set is empty. -/
def jmCoverage (r : ResumeInfo) (j : JdInfo) : ℚ :=
  let rs := ((r.skills.filterMap stripNonempty).map lowerStr).toFinset
  let js := ((j.skills.filterMap stripNonempty).map lowerStr).toFinset
  if js = ∅ then 0 else ((rs ∩ js).card : ℚ) / (js.card : ℚ)

/-- Score of `_local_match` (lines 39–41).  The semantic similarity comes
from `rag.best_matches` (or `0.0` when that is unavailable) and is passed
in as `semantic`; `covW` models `float(os.getenv('COVERAGE_WEIGHT','0.65'))`.
The feedback string is not modelled (no claim concerns it). -/
def localMatchScore (r : ResumeInfo) (j : JdInfo) (semantic covW : ℚ) : ℤ :=
  if jmCoverage r j ≠ 0 ∨ semantic ≠ 0 then
    pyRound (100 * (covW * jmCoverage r j + (1 - covW) * semantic))
  else 0

/-- Default coverage weight: `os.getenv('COVERAGE_WEIGHT', '0.65')`. -/
def defaultCoverageWeight : ℚ := 65 / 100

/-- Composite score as the SPEC words it: `round(100 × (w·coverage +
(1−w)·semantic))` when either signal is nonzero, otherwise exactly `0`. -/
def specCompositeScore (cov sem w : ℚ) : ℤ :=
  if cov = 0 ∧ sem = 0 then 0 else pyRound (100 * (w * cov + (1 - w) * sem))

/-- Coverage as the SPEC words it: sets of stripped, lowercased skills
(empty tokens discarded per the SkillToken invariant "no empty strings"),
`|R ∩ J| / |J|`, and `0.0` for a target with no skills. -/
def specCoverage (rSkills jSkills : List Codes) : ℚ :=
  let nR := ((rSkills.filterMap stripNonempty).map lowerStr).toFinset
  let nJ := ((jSkills.filterMap stripNonempty).map lowerStr).toFinset
  if nJ = ∅ then 0 else ((nR ∩ nJ).card : ℚ) / (nJ.card : ℚ)

/-- Coverage of the dashboard's `composite_match` (`app.py` lines 533–538):
the job skills arrive as one comma-separated CELL (`None`/NaN modelled as
`none`), `js` is the LIST of stripped lowercased nonempty-before-strip
entries, and the denominator is `len(js)` — the list length, duplicates and
entries that strip to nothing included. -/
def appCoverage (rskillsRaw : List Codes) (jobSkills : Option Codes) : ℚ :=
  let rs := ((rskillsRaw.filterMap stripNonempty).map lowerStr).toFinset
  let jdSk := match jobSkills with
    | some s => s.splitOn 44
    | none => []
  let js := (jdSk.filter (fun s => s ≠ [])).map (fun s => lowerStr (pyStrip s))
  if js = [] then 0 else ((rs ∩ js.toFinset).card : ℚ) / (js.length : ℚ)

/-- Score of the dashboard's single-pair `composite_match` (`app.py` lines
549–553), with the semantic score from the embedding engine passed in. -/
def compositeMatchScore (rskillsRaw : List Codes) (jobSkills : Option Codes)
    (semantic covW : ℚ) : ℤ :=
  if appCoverage rskillsRaw jobSkills ≠ 0 ∨ semantic ≠ 0 then
    pyRound (100 * (covW * appCoverage rskillsRaw jobSkills + (1 - covW) * semantic))
  else 0

/-- Per-job score of the batch loop of `user_dashboard` (`app.py` lines
588–601), transcribed independently of `composite_match`: coverage is
recomputed inline and combined with the batch-precomputed semantic score. -/
def batchPrelimScore (rskillsRaw : List Codes) (jobSkills : Option Codes)
    (semantic covW : ℚ) : ℤ :=
  let rskills := rskillsRaw.filterMap stripNonempty
  let rs := (rskills.map lowerStr).toFinset
  let jdSk := match jobSkills with
    | some s => s.splitOn 44
    | none => []
  let js := (jdSk.filter (fun s => s ≠ [])).map (fun s => lowerStr (pyStrip s))
  let coverage : ℚ :=
    if js = [] then 0 else ((rs ∩ js.toFinset).card : ℚ) / (js.length : ℚ)
  if coverage ≠ 0 ∨ semantic ≠ 0 then
    pyRound (100 * (covW * coverage + (1 - covW) * semantic))
  else 0

/-! ## Embedding and reranking engine (`rag.py`) -/

/-- Model of `cosine`: zero on empty or mismatched vectors, otherwise the
dot product clamped to `[0,1]` (the embedder normalizes its vectors, the
clamp is the code's safety net). -/
def cosine (u v : List ℚ) : ℚ :=
  if u = [] ∨ v = [] ∨ u.length ≠ v.length then 0
  else max 0 (min 1 ((List.zipWith (fun a b => a * b) u v).sum))

/-- Token set of `_best_matches_jaccard`:
`set(w.strip().lower() for w in t.split() if w.strip())`. -/
def tokset (t : Codes) : Finset Codes :=
  ((splitWs t).filterMap (fun w =>
    let ws := pyStrip w
    if ws = [] then none else some (lowerStr ws))).toFinset

/-- Jaccard similarity of two token sets as `_best_matches_jaccard` computes
it: `0.0` when either set is empty, else `|∩| / |∪|`. -/
def jSim (qs ts : Finset Codes) : ℚ :=
  if qs = ∅ ∨ ts = ∅ then 0
  else if (qs ∪ ts).card ≠ 0 then
    ((qs ∩ ts).card : ℚ) / ((qs ∪ ts).card : ℚ)
  else 0

/-- Items scored by Jaccard similarity against the query, in input order. -/
def jaccardScored (query : Codes) (items : List (Codes × Codes)) :
    List (Codes × Codes × ℚ) :=
  let qs := tokset query
  items.map (fun it => (it.1, it.2, jSim qs (tokset it.2)))

/-- Items scored by embedding cosine similarity, in input order.  The
source embeds `[query] + texts` in one batch and zips the result back onto
the items, which is this elementwise map for the embedding function `f`. -/
def embScored (f : Codes → List ℚ) (query : Codes) (items : List (Codes × Codes)) :
    List (Codes × Codes × ℚ) :=
  items.map (fun it => (it.1, it.2, cosine (f query) (f it.2)))

/-- Score component of a ranked entry. -/
def scoreOf (e : Codes × Codes × ℚ) : ℚ := e.2.2

/-- Phase 1 of `best_matches`: embedding scores when an embedder is
available (`embedO = some f`), else the Jaccard fallback; sorted by
descending score with Python's stable sort. -/
def phase1Ranked (embedO : Option (Codes → List ℚ)) (query : Codes)
    (items : List (Codes × Codes)) : List (Codes × Codes × ℚ) :=
  match embedO with
  | some f => sortKeyDesc scoreOf (embScored f query items)
  | none => sortKeyDesc scoreOf (jaccardScored query items)

/-- Min-max rescaling of one raw score: `(s - lo) / rng` with
`rng = (hi - lo) or 1.0` (the `or 1.0` avoids division by zero when all
raw scores are equal). -/
def rescaleScore (lo hi s : ℚ) : ℚ :=
  (s - lo) / (if hi - lo = 0 then 1 else hi - lo)

/-- Phase 2 of `best_matches`: cross-encoder scores for each (query, text)
pair (`zip(emb_ranked, scores)` pairs every entry with its own raw score,
an elementwise map for the reranker function `r`; `lo`/`hi` are the min and
max over that same score list), min-max rescaled, then stably re-sorted
descending. -/
def rerankRescore (r : Codes → Codes → ℚ) (query : Codes)
    (ranked : List (Codes × Codes × ℚ)) : List (Codes × Codes × ℚ) :=
  sortKeyDesc scoreOf (ranked.map (fun e =>
    (e.1, e.2.1,
      rescaleScore (listMin (ranked.map (fun e2 => r query e2.2.1)))
        (listMax (ranked.map (fun e2 => r query e2.2.1))) (r query e.2.1))))

/-- Model of `best_matches`.  `embedO` is the loaded embedding model (its
vector for a text), `none` when no model loads; `rerankO` the loaded
cross-encoder (its raw score for a (query, text) pair), `none` when absent,
disabled, or failing (the `except` path); `preEnv` models
`int(os.getenv('RERANK_PRESELECT', '50'))`. -/
def bestMatches (embedO : Option (Codes → List ℚ))
    (rerankO : Option (Codes → Codes → ℚ)) (preEnv : ℕ) (query : Codes)
    (items : List (Codes × Codes)) (topK : ℕ) : List (Codes × Codes × ℚ) :=
  if items = [] then []
  else
    let preselect := min (max topK preEnv) items.length
    let embRanked := (phase1Ranked embedO query items).take preselect
    match rerankO with
    | some r =>
      if 2 ≤ embRanked.length then (rerankRescore r query embRanked).take topK
      else embRanked.take topK
    | none => embRanked.take topK

/-! ## Local course recommender (`course_recommender.py`) -/

/-- One row of the course CSV; a non-string `skills` cell (NaN from an empty
cell) is `none`, which the `isinstance` guard skips. -/
structure CourseRow where
  title : Codes
  url : Codes
  skills : Option Codes
deriving DecidableEq, Repr

/-- Model of `recommend_courses` (the local CSV path, rows already read):
courses whose comma-separated skills overlap the cleaned missing-skill set
are scored by overlap size, sorted descending (the source sorts ascending
by the NEGATED score, which is the same stable descending order), and the
top `topN` are returned as (title, url) pairs. -/
def recommendCourses (missing : List Codes) (rows : List CourseRow)
    (topN : ℕ) : List (Codes × Codes) :=
  ((sortKeyDesc (fun e => ((e.2.2 : ℕ) : ℚ))
    (rows.filterMap (fun row =>
      match row.skills with
      | some sk =>
        if 0 < (((sk.splitOn 44).map (fun s => lowerStr (pyStrip s))).toFinset ∩
            (missing.map (fun ms => pyStrip (lowerStr ms))).toFinset).card then
          some (row.title, row.url,
            (((sk.splitOn 44).map (fun s => lowerStr (pyStrip s))).toFinset ∩
              (missing.map (fun ms => pyStrip (lowerStr ms))).toFinset).card)
        else none
      | none => none))).take topN).map (fun e => (e.1, e.2.1))

/-! ## Lemmas about the stable descending sort -/

theorem length_insertKeyDesc {α : Type} (key : α → ℚ) (x : α) (l : List α) :
    (insertKeyDesc key x l).length = l.length + 1 := by
  induction l with
  | nil => rfl
  | cons y ys ih =>
    by_cases h : key y ≤ key x <;> simp [insertKeyDesc, h, ih]

theorem length_sortKeyDesc {α : Type} (key : α → ℚ) (l : List α) :
    (sortKeyDesc key l).length = l.length := by
  induction l with
  | nil => rfl
  | cons x xs ih => simp [sortKeyDesc, length_insertKeyDesc, ih]

theorem mem_insertKeyDesc {α : Type} (key : α → ℚ) (x a : α) (l : List α) :
    a ∈ insertKeyDesc key x l ↔ a = x ∨ a ∈ l := by
  induction l with
  | nil => simp [insertKeyDesc]
  | cons y ys ih =>
    by_cases h : key y ≤ key x <;> simp [insertKeyDesc, h, ih] <;> tauto

theorem mem_sortKeyDesc {α : Type} (key : α → ℚ) (a : α) (l : List α) :
    a ∈ sortKeyDesc key l ↔ a ∈ l := by
  induction l with
  | nil => simp [sortKeyDesc]
  | cons x xs ih => simp [sortKeyDesc, mem_insertKeyDesc, ih]

theorem pairwise_insertKeyDesc {α : Type} (key : α → ℚ) (x : α) (l : List α)
    (h : l.Pairwise (fun a b => key b ≤ key a)) :
    (insertKeyDesc key x l).Pairwise (fun a b => key b ≤ key a) := by
  induction l with
  | nil => simp [insertKeyDesc]
  | cons y ys ih =>
    rcases List.pairwise_cons.mp h with ⟨hy, hys⟩
    by_cases hc : key y ≤ key x
    · simp only [insertKeyDesc, if_pos hc]
      exact List.Pairwise.cons
        (by
          intro b hb
          rcases List.mem_cons.mp hb with hb | hb
          · exact hb ▸ hc
          · exact le_trans (hy b hb) hc) h
    · simp only [insertKeyDesc, if_neg hc]
      exact List.Pairwise.cons
        (by
          intro b hb
          rcases (mem_insertKeyDesc key x b ys).mp hb with hb | hb
          · exact hb ▸ le_of_lt (lt_of_not_le hc)
          · exact hy b hb) (ih hys)

theorem pairwise_sortKeyDesc {α : Type} (key : α → ℚ) (l : List α) :
    (sortKeyDesc key l).Pairwise (fun a b => key b ≤ key a) := by
  induction l with
  | nil => simp [sortKeyDesc]
  | cons x xs ih => exact pairwise_insertKeyDesc key x _ ih

theorem filter_insertKeyDesc {α : Type} (key : α → ℚ) (x : α) (v : ℚ) (l : List α) :
    (insertKeyDesc key x l).filter (fun e => key e == v) =
      (if key x == v then x :: l.filter (fun e => key e == v)
       else l.filter (fun e => key e == v)) := by
  induction l with
  | nil => by_cases h : key x == v <;> simp [insertKeyDesc, List.filter, h]
  | cons y ys ih =>
    by_cases hc : key y ≤ key x
    · simp only [insertKeyDesc, if_pos hc]
      by_cases h : key x == v <;> simp [List.filter, h]
    · simp only [insertKeyDesc, if_neg hc]
      by_cases hyv : key y == v
      · have hxv : ¬ (key x == v) := by
          have h1 : key x < key y := lt_of_not_le hc
          have h2 : key y = v := by simpa using hyv
          simp [h2 ▸ ne_of_lt h1]
        simp [List.filter, hyv, ih, hxv]
      · simp [List.filter, hyv, ih]

theorem filter_sortKeyDesc {α : Type} (key : α → ℚ) (v : ℚ) (l : List α) :
    (sortKeyDesc key l).filter (fun e => key e == v) =
      l.filter (fun e => key e == v) := by
  induction l with
  | nil => rfl
  | cons x xs ih =>
    by_cases h : key x == v <;>
      simp [sortKeyDesc, filter_insertKeyDesc, h, List.filter, ih]

theorem filter_take_extends {α : Type} (l : List α) (p : α → Bool) (n : ℕ) :
    ∃ rest, (l.take n).filter p ++ rest = l.filter p :=
  ⟨(l.drop n).filter p, by rw [← List.filter_append, List.take_append_drop]⟩

/-! ## Lemmas about skill normalization -/

theorem pyLower_pyLower (c : ℕ) : pyLower (pyLower c) = pyLower c := by
  unfold pyLower
  split_ifs with h1 h2 <;> omega

theorem isSpace_pyLower (c : ℕ) : isSpace (pyLower c) = isSpace c := by
  unfold pyLower
  split_ifs with h
  · have hfalse : ∀ d, 65 ≤ d → d ≤ 122 → isSpace d = false := by
      intro d h1 _
      simp only [isSpace, Bool.or_eq_false_iff, beq_eq_false_iff_ne, ne_eq]
      omega
    rw [hfalse (c + 32) (by omega) (by omega), hfalse c (by omega) (by omega)]
  · rfl

theorem collapseAux_cons_space_true {c : ℕ} {cs : Codes} (hs : isSpace c = true) :
    collapseAux true (c :: cs) = collapseAux true cs := by
  simp [collapseAux, hs]

theorem collapseAux_cons_space_false {c : ℕ} {cs : Codes} (hs : isSpace c = true) :
    collapseAux false (c :: cs) = 32 :: collapseAux true cs := by
  simp [collapseAux, hs]

theorem collapseAux_cons_nonspace {c : ℕ} {cs : Codes} (hs : isSpace c = false)
    (b : Bool) : collapseAux b (c :: cs) = c :: collapseAux false cs := by
  simp [collapseAux, hs]

theorem mem_collapseAux (a : ℕ) (l : Codes) :
    ∀ b, a ∈ collapseAux b l → a = 32 ∨ a ∈ l := by
  induction l with
  | nil => intro b h; simp [collapseAux] at h
  | cons c cs ih =>
    intro b h
    by_cases hs : isSpace c
    · cases b with
      | true =>
        rw [collapseAux_cons_space_true hs] at h
        rcases ih true h with h' | h'
        · exact Or.inl h'
        · exact Or.inr (List.mem_cons_of_mem c h')
      | false =>
        rw [collapseAux_cons_space_false hs] at h
        rcases List.mem_cons.mp h with h' | h'
        · exact Or.inl h'
        · rcases ih true h' with h'' | h''
          · exact Or.inl h''
          · exact Or.inr (List.mem_cons_of_mem c h'')
    · rw [collapseAux_cons_nonspace (Bool.not_eq_true _ ▸ hs) b] at h
      rcases List.mem_cons.mp h with h' | h'
      · exact Or.inr (h' ▸ List.mem_cons_self c cs)
      · rcases ih false h' with h'' | h''
        · exact Or.inl h''
        · exact Or.inr (List.mem_cons_of_mem c h'')

theorem collapseAux_idem (l : Codes) :
    ∀ b, collapseAux b (collapseAux b l) = collapseAux b l := by
  induction l with
  | nil => intro b; rfl
  | cons c cs ih =>
    intro b
    by_cases hs : isSpace c
    · cases b with
      | true =>
        rw [collapseAux_cons_space_true hs, ih true]
      | false =>
        rw [collapseAux_cons_space_false hs,
          @collapseAux_cons_space_false 32 (collapseAux true cs) rfl,
          ih true]
    · have hs' : isSpace c = false := Bool.not_eq_true _ ▸ hs
      rw [collapseAux_cons_nonspace hs' b, collapseAux_cons_nonspace hs' b, ih false]

theorem getLast?_cons_ne {c : ℕ} {cs : Codes} (h : cs ≠ []) :
    (c :: cs).getLast? = cs.getLast? := by
  cases cs with
  | nil => exact absurd rfl h
  | cons d ds => simp [List.getLast?_cons_cons]

theorem collapseAux_ends :
    ∀ l : Codes, l ≠ [] → lastIsSpace l = false →
      ∀ b, collapseAux b l ≠ [] ∧ lastIsSpace (collapseAux b l) = false := by
  intro l
  induction l with
  | nil => intro hl; exact absurd rfl hl
  | cons c cs ih =>
    intro _ he b
    by_cases hcs : cs = []
    · subst hcs
      have hc : isSpace c = false := by
        simpa [lastIsSpace, List.getLast?] using he
      rw [collapseAux_cons_nonspace hc b]
      constructor <;> simp [collapseAux, lastIsSpace, List.getLast?, hc]
    · have he' : lastIsSpace cs = false := by
        unfold lastIsSpace at he ⊢
        rwa [getLast?_cons_ne hcs] at he
      have ihcs := ih hcs he'
      by_cases hs : isSpace c
      · cases b with
        | true =>
          rw [collapseAux_cons_space_true hs]
          exact ihcs true
        | false =>
          rw [collapseAux_cons_space_false hs]
          refine ⟨by simp, ?_⟩
          unfold lastIsSpace
          rw [getLast?_cons_ne (ihcs true).1]
          exact (ihcs true).2
      · have hs' : isSpace c = false := Bool.not_eq_true _ ▸ hs
        rw [collapseAux_cons_nonspace hs' b]
        refine ⟨by simp, ?_⟩
        unfold lastIsSpace
        rw [getLast?_cons_ne (ihcs false).1]
        exact (ihcs false).2

theorem lastIsSpace_eq_head_reverse (l : Codes) :
    lastIsSpace l = headIsSpace l.reverse := by
  unfold lastIsSpace headIsSpace
  rw [List.head?_reverse]

theorem collapseAux_head (l : Codes) (hh : headIsSpace l = false) :
    headIsSpace (collapseAux false l) = false := by
  cases l with
  | nil => rfl
  | cons c cs =>
    have hc : isSpace c = false := by simpa [headIsSpace] using hh
    rw [collapseAux_cons_nonspace hc false]
    simpa [headIsSpace]

theorem headIsSpace_dropWhile (l : Codes) :
    headIsSpace (l.dropWhile isSpace) = false := by
  induction l with
  | nil => rfl
  | cons c cs ih =>
    by_cases h : isSpace c
    · simpa [List.dropWhile_cons, h] using ih
    · simp [List.dropWhile_cons, h, headIsSpace]

theorem dropWhile_of_head_false (l : Codes) (hh : headIsSpace l = false) :
    l.dropWhile isSpace = l := by
  cases l with
  | nil => rfl
  | cons c cs =>
    have hc : isSpace c = false := by simpa [headIsSpace] using hh
    simp [List.dropWhile_cons, hc]

theorem getLast?_dropWhile (l : Codes) :
    l.dropWhile isSpace = [] ∨ (l.dropWhile isSpace).getLast? = l.getLast? := by
  induction l with
  | nil => exact Or.inl rfl
  | cons c cs ih =>
    by_cases h : isSpace c
    · rw [List.dropWhile_cons, if_pos h]
      by_cases hdw : cs.dropWhile isSpace = []
      · exact Or.inl hdw
      · have hcs : cs ≠ [] := by
          intro hcontra
          rw [hcontra] at hdw
          exact hdw rfl
        rcases ih with h' | h'
        · exact absurd h' hdw
        · exact Or.inr (by rw [getLast?_cons_ne hcs]; exact h')
    · rw [List.dropWhile_cons, if_neg h]
      exact Or.inr rfl

theorem lastIsSpace_pyStrip (l : Codes) : lastIsSpace (pyStrip l) = false := by
  unfold pyStrip
  rw [lastIsSpace_eq_head_reverse, List.reverse_reverse]
  exact headIsSpace_dropWhile _

theorem headIsSpace_pyStrip (l : Codes) : headIsSpace (pyStrip l) = false := by
  unfold pyStrip
  rcases getLast?_dropWhile ((l.dropWhile isSpace).reverse) with h | h
  · rw [h]; rfl
  · unfold headIsSpace
    rw [List.head?_reverse, h, List.getLast?_reverse]
    have := headIsSpace_dropWhile l
    unfold headIsSpace at this
    exact this

theorem pyStrip_of_stripped (l : Codes) (hh : headIsSpace l = false)
    (he : lastIsSpace l = false) : pyStrip l = l := by
  unfold pyStrip
  rw [dropWhile_of_head_false l hh]
  rw [dropWhile_of_head_false l.reverse (by rw [← lastIsSpace_eq_head_reverse]; exact he)]
  exact List.reverse_reverse l

theorem headIsSpace_lowerStr (l : Codes) :
    headIsSpace (lowerStr l) = headIsSpace l := by
  unfold headIsSpace lowerStr
  rw [List.head?_map]
  cases l.head? with
  | none => rfl
  | some c => exact isSpace_pyLower c

theorem lastIsSpace_lowerStr (l : Codes) :
    lastIsSpace (lowerStr l) = lastIsSpace l := by
  rw [lastIsSpace_eq_head_reverse, lastIsSpace_eq_head_reverse]
  unfold lowerStr
  rw [← List.map_reverse]
  exact headIsSpace_lowerStr l.reverse

theorem lowerStr_fix (l : Codes) (h : ∀ a ∈ l, pyLower a = a) : lowerStr l = l := by
  induction l with
  | nil => rfl
  | cons c cs ih =>
    unfold lowerStr at ih ⊢
    rw [List.map_cons, h c (List.mem_cons_self c cs),
      ih (fun a ha => h a (List.mem_cons_of_mem c ha))]

theorem pyLower_32 : pyLower 32 = 32 := by decide

theorem normalizeSkill_idem (s : Codes) :
    normalizeSkill (normalizeSkill s) = normalizeSkill s := by
  by_cases hme : lowerStr (pyStrip s) = []
  · have h1 : normalizeSkill s = [] := by
      unfold normalizeSkill collapseWs
      rw [hme]
      rfl
    rw [h1]
    rfl
  · have hmh : headIsSpace (lowerStr (pyStrip s)) = false := by
      rw [headIsSpace_lowerStr]; exact headIsSpace_pyStrip s
    have hml : lastIsSpace (lowerStr (pyStrip s)) = false := by
      rw [lastIsSpace_lowerStr]; exact lastIsSpace_pyStrip s
    have ht := collapseAux_ends (lowerStr (pyStrip s)) hme hml false
    have hth : headIsSpace (collapseAux false (lowerStr (pyStrip s))) = false :=
      collapseAux_head _ hmh
    have hstrip : pyStrip (collapseAux false (lowerStr (pyStrip s))) =
        collapseAux false (lowerStr (pyStrip s)) :=
      pyStrip_of_stripped _ hth ht.2
    have hlower : lowerStr (collapseAux false (lowerStr (pyStrip s))) =
        collapseAux false (lowerStr (pyStrip s)) := by
      refine lowerStr_fix _ (fun a ha => ?_)
      rcases mem_collapseAux a _ false ha with h32 | hmem
      · rw [h32]; exact pyLower_32
      · rcases List.mem_map.mp hmem with ⟨b, _, hb⟩
        rw [← hb]; exact pyLower_pyLower b
    show collapseWs (lowerStr (pyStrip (normalizeSkill s))) = normalizeSkill s
    unfold normalizeSkill collapseWs
    rw [hstrip, hlower]
    exact collapseAux_idem _ false

theorem aliasValues_fixed :
    aliasTable.all
      (fun kv => (normalizeSkill kv.2 == kv.2) && (aliasGet kv.2 == kv.2)) = true := by
  decide

theorem canonSkill_idem (s : Codes) : canonSkill (canonSkill s) = canonSkill s := by
  by_cases h2 : normalizeSkill s = []
  · have h1 : canonSkill s = [] := by unfold canonSkill; rw [if_pos h2]
    rw [h1]
    decide
  · have hcs : canonSkill s = aliasGet (normalizeSkill s) := by
      unfold canonSkill; rw [if_neg h2]
    cases hfind : aliasTable.find? (fun kv => kv.1 == normalizeSkill s) with
    | none =>
      have hag : aliasGet (normalizeSkill s) = normalizeSkill s := by
        unfold aliasGet; rw [hfind]
      rw [hcs, hag]
      unfold canonSkill
      rw [normalizeSkill_idem s, if_neg h2]
      unfold aliasGet; rw [hfind]
    | some kv =>
      have hmem : kv ∈ aliasTable := List.mem_of_find?_eq_some hfind
      have hag : aliasGet (normalizeSkill s) = kv.2 := by
        unfold aliasGet; rw [hfind]
      rw [hcs, hag]
      have hall := aliasValues_fixed
      rw [List.all_eq_true] at hall
      have hkv := hall kv hmem
      simp only [Bool.and_eq_true, beq_iff_eq] at hkv
      unfold canonSkill
      rw [hkv.1]
      by_cases hkve : kv.2 = []
      · rw [if_pos hkve]; exact hkve.symm
      · rw [if_neg hkve]; exact hkv.2

/-- C9: skill canonicalization is idempotent — for every string `s`,
`_canon_skill (_canon_skill s) = _canon_skill s`; in particular
canonicalizing `"node"` gives `"node.js"` and canonicalizing `"node.js"`
is a no-op. -/
theorem c9_canon_idempotent :
    (∀ s : Codes, canonSkill (canonSkill s) = canonSkill s) ∧
    canonSkill (toCodes "node") = toCodes "node.js" ∧
    canonSkill (toCodes "node.js") = toCodes "node.js" :=
  ⟨canonSkill_idem, by decide, by decide⟩

/-! ## Membership lemmas for the sorted-set views -/

theorem mem_insertLex (x a : Codes) (l : List Codes) :
    a ∈ insertLex x l ↔ a = x ∨ a ∈ l := by
  induction l with
  | nil => simp [insertLex]
  | cons y ys ih =>
    by_cases h : lexLe x y <;> simp [insertLex, h, ih] <;> tauto

theorem mem_sortLex (a : Codes) (l : List Codes) : a ∈ sortLex l ↔ a ∈ l := by
  induction l with
  | nil => simp [sortLex]
  | cons x xs ih => simp [sortLex, mem_insertLex, ih]

theorem mem_firstDedupAux {α : Type} [DecidableEq α] (a : α) (l : List α) :
    ∀ seen : List α, a ∈ firstDedupAux seen l ↔ a ∈ l ∧ a ∉ seen := by
  induction l with
  | nil => intro seen; simp [firstDedupAux]
  | cons x xs ih =>
    intro seen
    by_cases h : x ∈ seen
    · rw [firstDedupAux, if_pos h, ih seen]
      constructor
      · rintro ⟨h1, h2⟩; exact ⟨List.mem_cons_of_mem x h1, h2⟩
      · rintro ⟨h1, h2⟩
        rcases List.mem_cons.mp h1 with h1 | h1
        · exact absurd (h1 ▸ h) h2
        · exact ⟨h1, h2⟩
    · rw [firstDedupAux, if_neg h]
      constructor
      · intro hmem
        rcases List.mem_cons.mp hmem with h1 | h1
        · exact ⟨h1 ▸ List.mem_cons_self x xs, h1 ▸ h⟩
        · rcases (ih (x :: seen)).mp h1 with ⟨h2, h3⟩
          exact ⟨List.mem_cons_of_mem x h2,
            fun hc => h3 (List.mem_cons_of_mem x hc)⟩
      · rintro ⟨h1, h2⟩
        rcases List.mem_cons.mp h1 with h1 | h1
        · exact h1 ▸ List.mem_cons_self _ _
        · by_cases hax : a = x
          · exact hax ▸ List.mem_cons_self _ _
          · exact List.mem_cons_of_mem _ ((ih (x :: seen)).mpr
              ⟨h1, fun hc => (List.mem_cons.mp hc).elim hax h2⟩)

theorem mem_firstDedup {α : Type} [DecidableEq α] (a : α) (l : List α) :
    a ∈ firstDedup l ↔ a ∈ l := by
  rw [firstDedup, mem_firstDedupAux]
  simp

/-! ## Claim C1: composite score formula of the local scorer -/

/-- C1: for every coverage and semantic value, the local scorer's composite
score equals `round(100·(w·coverage + (1−w)·semantic))` whenever coverage or
semantic is nonzero and is exactly `0` when both are zero (the spec-side
`specCompositeScore` states precisely that split), with default coverage
weight `0.65`. -/
theorem c1_local_score_formula :
    (∀ (r : ResumeInfo) (j : JdInfo) (semantic w : ℚ),
      localMatchScore r j semantic w =
        specCompositeScore (jmCoverage r j) semantic w) ∧
    defaultCoverageWeight = 65 / 100 := by
  constructor
  · intro r j semantic w
    unfold localMatchScore specCompositeScore
    by_cases h : jmCoverage r j ≠ 0 ∨ semantic ≠ 0
    · rw [if_pos h, if_neg (by tauto)]
    · push_neg at h
      rw [if_neg (by tauto), if_pos h]
  · rfl

/-! ## Claim C2: the coverage formula -/

section RatEvalCov

attribute [local semireducible] Rat.mul Rat.add Rat.sub Rat.div Rat.inv Rat.neg

/-- C2 counterexample: for resume skills `{"python"}` and the job skill
cell `"python,python"`, the dashboard `composite_match` computes coverage
`1/2` (its denominator is the length of the split LIST, duplicates
counted), while the spec's deduplicating set formula gives `1`. -/
theorem c2_counterexample :
    appCoverage [toCodes "python"] (some (toCodes "python,python")) = 1 / 2 ∧
    specCoverage [toCodes "python"] ((toCodes "python,python").splitOn 44) = 1 ∧
    appCoverage [toCodes "python"] (some (toCodes "python,python")) ≠
      specCoverage [toCodes "python"] ((toCodes "python,python").splitOn 44) := by
  refine ⟨by decide, by decide, by decide⟩

theorem filterMap_stripNonempty_eq (l : List Codes) :
    l.filterMap stripNonempty =
      (l.filter (fun e => pyStrip e ≠ [])).map pyStrip := by
  induction l with
  | nil => rfl
  | cons e es ih =>
    by_cases h : pyStrip e = [] <;>
      simp [List.filterMap_cons, List.filter_cons, stripNonempty, h, ih]

/-- C2 amended: `_local_match`'s coverage equals the spec's deduplicating
set formula `|normalize R ∩ normalize J| / |normalize J|` (0 when the
normalized job set is empty), and the dashboard `composite_match` coverage
— whose denominator is the raw split-list length — agrees with the set
formula exactly when the job cell's normalized entries are pairwise
distinct and none strips to the empty string; the example gives `2/3`. -/
theorem c2_coverage_amended :
    (∀ (r : ResumeInfo) (j : JdInfo),
      jmCoverage r j = specCoverage r.skills j.skills) ∧
    (∀ (rskills : List Codes) (cell : Codes),
      ((((cell.splitOn 44).filter (fun s => s ≠ [])).map
          (fun s => lowerStr (pyStrip s))).Nodup ∧
        ∀ s ∈ ((cell.splitOn 44).filter (fun s => s ≠ [])).map
          (fun s => lowerStr (pyStrip s)), s ≠ []) →
      appCoverage rskills (some cell) = specCoverage rskills (cell.splitOn 44)) ∧
    specCoverage [toCodes "Python", toCodes "SQL"]
      [toCodes "python", toCodes "sql", toCodes "aws"] = 2 / 3 ∧
    jmCoverage ⟨[toCodes "Python", toCodes "SQL"], [], []⟩
      ⟨[toCodes "python", toCodes "sql", toCodes "aws"], []⟩ = 2 / 3 := by
  refine ⟨fun r j => rfl, ?_, by decide, by decide⟩
  intro rskills cell hyp
  obtain ⟨hnd, hne⟩ := hyp
  have hfc : (cell.splitOn 44).filter (fun s => s ≠ []) =
      (cell.splitOn 44).filter (fun e => pyStrip e ≠ []) := by
    refine List.filter_congr (fun e he => ?_)
    by_cases hpe : pyStrip e = []
    · have hee : e = [] := by
        by_contra hne'
        have hmem : lowerStr (pyStrip e) ∈
            ((cell.splitOn 44).filter (fun s => s ≠ [])).map
              (fun s => lowerStr (pyStrip s)) :=
          List.mem_map_of_mem _ (List.mem_filter.mpr ⟨he, by simpa using hne'⟩)
        have := hne _ hmem
        rw [hpe] at this
        exact this rfl
      simp only [hee]
      rfl
    · have hee : e ≠ [] := by
        intro hcontra
        rw [hcontra] at hpe
        exact hpe rfl
      simp [hee, hpe]
  have hjs : ((cell.splitOn 44).filter (fun s => s ≠ [])).map
      (fun s => lowerStr (pyStrip s)) =
      ((cell.splitOn 44).filterMap stripNonempty).map lowerStr := by
    rw [filterMap_stripNonempty_eq, hfc, List.map_map]
    rfl
  simp only [appCoverage, specCoverage]
  rw [hjs]
  set jsL := ((cell.splitOn 44).filterMap stripNonempty).map lowerStr with hjsL
  have hnd' : jsL.Nodup := by rw [← hjs]; exact hnd
  by_cases hempty : jsL = []
  · rw [if_pos hempty, if_pos (by rw [hempty]; rfl)]
  · have hfne : jsL.toFinset ≠ ∅ := by
      rw [ne_eq, List.toFinset_eq_empty_iff]
      exact hempty
    rw [if_neg hempty, if_neg hfne, List.toFinset_card_of_nodup hnd']

theorem c2_coverage_amended_witness :
    appCoverage [toCodes "python"] (some (toCodes "python, aws")) =
      specCoverage [toCodes "python"] ((toCodes "python, aws").splitOn 44) :=
  c2_coverage_amended.2.1 [toCodes "python"] (toCodes "python, aws") (by decide)

end RatEvalCov

/-! ## Claim C3: remote-failure fallback of entity extraction -/

/-- C3 counterexample: with a mocked remote HTTP 500 (credential set, no
cache hit), `extract_resume_entities` returns the canonical empty-entity
shape, while `_local_extract_entities` on the text `"python"` extracts the
skill and keyword `python` — the two results differ. -/
theorem c3_counterexample :
    extractResumeEntities (fun _ => none) none 500 none false (toCodes "python") ≠
      localExtractEntities (fun _ => none) (toCodes "python") ∧
    localExtractEntities (fun _ => none) (toCodes "python") =
      ⟨[toCodes "python"], [], [], [toCodes "python"]⟩ ∧
    extractResumeEntities (fun _ => none) none 500 none false (toCodes "python") =
      emptyEntities := by
  refine ⟨by decide, by decide, by decide⟩

/-- C3 amended: when the remote service responds with a non-success status
(no cache hit), `extract_resume_entities` returns the canonical
empty-entity result `{skills: [], experience: [], education: [],
keywords: []}` in every mode — not the local extractor's result (those
coincide only when the local result is itself empty). -/
theorem c3_fallback_amended :
    ∀ (closeM : Codes → Option Codes) (status : ℕ) (payload : Option Entities)
      (llmOnly : Bool) (text : Codes),
      status ≠ 200 →
      extractResumeEntities closeM none status payload llmOnly text =
        emptyEntities := by
  intro closeM status payload llmOnly text h
  unfold extractResumeEntities
  by_cases ht : text = []
  · rw [if_pos ht]
  · rw [if_neg ht]
    simp [h]

theorem c3_fallback_amended_witness :
    extractResumeEntities (fun _ => none) none 500 none false (toCodes "python") =
      emptyEntities :=
  c3_fallback_amended (fun _ => none) 500 none false (toCodes "python") (by decide)

/-! ## Claim C4: batch versus per-item composite score -/

/-- C4: for a fixed resume and job, given the same precomputed semantic
score and coverage weight, the batch loop's per-job composite score equals
the single-pair `composite_match` score. -/
theorem c4_batch_equiv :
    ∀ (rskills : List Codes) (jobSkills : Option Codes) (semantic covW : ℚ),
      batchPrelimScore rskills jobSkills semantic covW =
        compositeMatchScore rskills jobSkills semantic covW := by
  intro rskills jobSkills semantic covW
  rfl

/-! ## Claim C5: blending of local and remote extraction -/

/-- C5 counterexample: blending an empty remote result with a local result
that has experience and education entries yields EMPTY experience and
education — those two fields do not fall back to the local extractor's
values. -/
theorem c5_counterexample :
    (blendEntities ⟨[], [], [], []⟩
        ⟨[], [toCodes "5 years python"], [toCodes "bachelor"], []⟩).experience = [] ∧
    (blendEntities ⟨[], [], [], []⟩
        ⟨[], [toCodes "5 years python"], [toCodes "bachelor"], []⟩).education = [] ∧
    (blendEntities ⟨[], [], [], []⟩
        ⟨[], [toCodes "5 years python"], [toCodes "bachelor"], []⟩).experience ≠
      [toCodes "5 years python"] ∧
    (blendEntities ⟨[], [], [], []⟩
        ⟨[], [toCodes "5 years python"], [toCodes "bachelor"], []⟩).education ≠
      [toCodes "bachelor"] := by
  refine ⟨by decide, by decide, by decide, by decide⟩

/-- C5 amended: in blended extraction the returned skills are the union of
the normalized local and remote skills; experience and education keep the
REMOTE lists capped at 30 and 20 entries (remaining empty when the remote
list is empty — no local fallback); keywords prefer the remote list capped
at 50 and fall back to the local keywords when the remote list is empty. -/
theorem c5_blend_amended :
    ∀ parsed loc : Entities,
      (blendEntities parsed loc).skills.toFinset =
        (loc.skills.map normalizeSkill).toFinset ∪
          (parsed.skills.map normalizeSkill).toFinset ∧
      (blendEntities parsed loc).experience = parsed.experience.take 30 ∧
      (blendEntities parsed loc).education = parsed.education.take 20 ∧
      (parsed.keywords ≠ [] →
        (blendEntities parsed loc).keywords = parsed.keywords.take 50) ∧
      (parsed.keywords = [] →
        (blendEntities parsed loc).keywords = loc.keywords.take 50) := by
  intro parsed loc
  refine ⟨?_, rfl, rfl, ?_, ?_⟩
  · ext a
    simp only [blendEntities, List.mem_toFinset, mem_sortLex, mem_firstDedup,
      List.mem_append, Finset.mem_union]
  · intro h
    simp [blendEntities, h]
  · intro h
    simp [blendEntities, h]

theorem c5_blend_amended_witness :
    (blendEntities ⟨[toCodes "aws"], [], [], [toCodes "cloud"]⟩
        ⟨[toCodes "python"], [], [], [toCodes "py"]⟩).keywords =
      [toCodes "cloud"] := by
  have h := (c5_blend_amended ⟨[toCodes "aws"], [], [], [toCodes "cloud"]⟩
    ⟨[toCodes "python"], [], [], [toCodes "py"]⟩).2.2.2.1 (by decide)
  rw [h]
  rfl

/-! ## Claim C6: Jaccard fallback of best_matches -/

section RatEvalJac

attribute [local semireducible] Rat.mul Rat.add Rat.sub Rat.div Rat.inv Rat.neg

/-- C6: with no embedding model loadable and no reranker, `best_matches`
returns exactly the candidates stably sorted by descending token-set
Jaccard similarity, truncated to `top_k`; and the query `"python sql"`
against the candidate `"python java"` scores exactly `1/3`. -/
theorem c6_jaccard_fallback :
    (∀ (q : Codes) (items : List (Codes × Codes)) (topK : ℕ),
      bestMatches none none 50 q items topK =
        (sortKeyDesc scoreOf (jaccardScored q items)).take topK) ∧
    jSim (tokset (toCodes "python sql")) (tokset (toCodes "python java")) =
      1 / 3 := by
  constructor
  · intro q items topK
    by_cases hi : items = []
    · subst hi
      simp [bestMatches, jaccardScored, sortKeyDesc]
    · have hb : bestMatches none none 50 q items topK =
          ((sortKeyDesc scoreOf (jaccardScored q items)).take
            (min (max topK 50) items.length)).take topK := by
        unfold bestMatches phase1Ranked
        rw [if_neg hi]
      rw [hb, List.take_take]
      have hlen : (sortKeyDesc scoreOf (jaccardScored q items)).length =
          items.length := by
        rw [length_sortKeyDesc]
        simp [jaccardScored]
      rcases le_or_lt topK (min (max topK 50) items.length) with h | h
      · rw [min_eq_left h]
      · have hpre : min (max topK 50) items.length = items.length := by
          rcases le_total (max topK 50) items.length with h3 | h3
          · exfalso
            rw [min_eq_left h3] at h
            have := le_max_left topK 50
            omega
          · exact min_eq_right h3
        rw [hpre] at h ⊢
        rw [min_eq_right (le_of_lt h)]
        rw [List.take_of_length_le (by omega : (sortKeyDesc scoreOf
          (jaccardScored q items)).length ≤ items.length),
          List.take_of_length_le (by omega : (sortKeyDesc scoreOf
          (jaccardScored q items)).length ≤ topK)]
  · decide

end RatEvalJac

/-! ## Score-range lemmas -/

theorem foldl_min_le_init (xs : List ℚ) : ∀ x, xs.foldl min x ≤ x := by
  induction xs with
  | nil => intro x; exact le_refl x
  | cons y ys ih =>
    intro x
    exact le_trans (ih (min x y)) (min_le_left x y)

theorem foldl_min_le_mem (xs : List ℚ) :
    ∀ x a, a ∈ xs → xs.foldl min x ≤ a := by
  induction xs with
  | nil => intro x a ha; exact absurd ha (List.not_mem_nil a)
  | cons y ys ih =>
    intro x a ha
    rw [List.foldl_cons]
    rcases List.mem_cons.mp ha with rfl | ha
    · exact le_trans (foldl_min_le_init ys (min x a)) (min_le_right x a)
    · exact ih (min x y) a ha

theorem listMin_le (l : List ℚ) (a : ℚ) (ha : a ∈ l) : listMin l ≤ a := by
  cases l with
  | nil => exact absurd ha (List.not_mem_nil a)
  | cons x xs =>
    rcases List.mem_cons.mp ha with ha | ha
    · exact ha ▸ foldl_min_le_init xs x
    · exact foldl_min_le_mem xs x a ha

theorem le_foldl_max_init (xs : List ℚ) : ∀ x, x ≤ xs.foldl max x := by
  induction xs with
  | nil => intro x; exact le_refl x
  | cons y ys ih =>
    intro x
    exact le_trans (le_max_left x y) (ih (max x y))

theorem le_foldl_max_mem (xs : List ℚ) :
    ∀ x a, a ∈ xs → a ≤ xs.foldl max x := by
  induction xs with
  | nil => intro x a ha; exact absurd ha (List.not_mem_nil a)
  | cons y ys ih =>
    intro x a ha
    rw [List.foldl_cons]
    rcases List.mem_cons.mp ha with rfl | ha
    · exact le_trans (le_max_right x a) (le_foldl_max_init ys (max x a))
    · exact ih (max x y) a ha

theorem le_listMax (l : List ℚ) (a : ℚ) (ha : a ∈ l) : a ≤ listMax l := by
  cases l with
  | nil => exact absurd ha (List.not_mem_nil a)
  | cons x xs =>
    rcases List.mem_cons.mp ha with ha | ha
    · exact ha ▸ le_foldl_max_init xs x
    · exact le_foldl_max_mem xs x a ha

theorem cosine_bounds (u v : List ℚ) : 0 ≤ cosine u v ∧ cosine u v ≤ 1 := by
  unfold cosine
  split_ifs
  · exact ⟨le_refl 0, zero_le_one⟩
  · exact ⟨le_max_left 0 _, max_le zero_le_one (min_le_left 1 _)⟩

theorem jSim_bounds (qs ts : Finset Codes) : 0 ≤ jSim qs ts ∧ jSim qs ts ≤ 1 := by
  unfold jSim
  split_ifs with h1 h2
  · exact ⟨le_refl 0, zero_le_one⟩
  · constructor
    · exact div_nonneg (Nat.cast_nonneg _) (Nat.cast_nonneg _)
    · rw [div_le_one (by exact_mod_cast Nat.pos_of_ne_zero h2)]
      exact_mod_cast Finset.card_le_card Finset.inter_subset_union
  · exact ⟨le_refl 0, zero_le_one⟩

theorem rescale_bounds (s lo hi : ℚ) (h1 : lo ≤ s) (h2 : s ≤ hi) :
    0 ≤ rescaleScore lo hi s ∧ rescaleScore lo hi s ≤ 1 := by
  unfold rescaleScore
  by_cases h : hi - lo = 0
  · rw [if_pos h]
    have hs : s = lo := le_antisymm (by linarith [sub_eq_zero.mp h]) h1
    rw [hs]
    simp
  · rw [if_neg h]
    have hpos : 0 < hi - lo := lt_of_le_of_ne (by linarith) (Ne.symm h)
    exact ⟨div_nonneg (by linarith) (le_of_lt hpos),
      (div_le_one hpos).mpr (by linarith)⟩

theorem mem_phase1_bounds (embedO : Option (Codes → List ℚ)) (q : Codes)
    (items : List (Codes × Codes)) (e : Codes × Codes × ℚ)
    (he : e ∈ phase1Ranked embedO q items) :
    0 ≤ scoreOf e ∧ scoreOf e ≤ 1 := by
  cases embedO with
  | some f =>
    rw [phase1Ranked, mem_sortKeyDesc] at he
    rcases List.mem_map.mp he with ⟨it, _, heq⟩
    rw [← heq]
    exact cosine_bounds (f q) (f it.2)
  | none =>
    rw [phase1Ranked, mem_sortKeyDesc] at he
    rcases List.mem_map.mp he with ⟨it, _, heq⟩
    rw [← heq]
    exact jSim_bounds (tokset q) (tokset it.2)

/-! ## Claim C8: every returned score lies in [0,1] -/

set_option maxHeartbeats 800000 in
/-- C8: on every path of `best_matches` — embedding cosine (a clamped dot
product), Jaccard fallback, and the min-max rescaled reranker phase (whose
scale denominator defaults to 1 when all raw scores are equal) — every
score of the returned ranking lies in `[0, 1]`. -/
theorem c8_scores_in_range :
    ∀ (embedO : Option (Codes → List ℚ)) (rerankO : Option (Codes → Codes → ℚ))
      (preEnv : ℕ) (q : Codes) (items : List (Codes × Codes)) (topK : ℕ),
      (bestMatches embedO rerankO preEnv q items topK).Forall
        (fun e => 0 ≤ scoreOf e ∧ scoreOf e ≤ 1) := by
  intro embedO rerankO preEnv q items topK
  rw [List.forall_iff_forall_mem]
  intro e he
  by_cases hi : items = []
  · rw [hi] at he
    simp [bestMatches] at he
  · cases rerankO with
    | none =>
      have hb : bestMatches embedO none preEnv q items topK =
          ((phase1Ranked embedO q items).take
            (min (max topK preEnv) items.length)).take topK := by
        unfold bestMatches
        rw [if_neg hi]
      rw [hb] at he
      exact mem_phase1_bounds embedO q items e
        (List.mem_of_mem_take (List.mem_of_mem_take he))
    | some r =>
      have hb : bestMatches embedO (some r) preEnv q items topK =
          (if 2 ≤ ((phase1Ranked embedO q items).take
              (min (max topK preEnv) items.length)).length then
            (rerankRescore r q ((phase1Ranked embedO q items).take
              (min (max topK preEnv) items.length))).take topK
          else ((phase1Ranked embedO q items).take
              (min (max topK preEnv) items.length)).take topK) := by
        unfold bestMatches
        rw [if_neg hi]
      rw [hb] at he
      by_cases h2 : 2 ≤ ((phase1Ranked embedO q items).take
          (min (max topK preEnv) items.length)).length
      · rw [if_pos h2] at he
        have he2 := List.mem_of_mem_take he
        rw [rerankRescore, mem_sortKeyDesc] at he2
        rcases List.mem_map.mp he2 with ⟨e0, he0, heq⟩
        have hsc : r q e0.2.1 ∈
            ((phase1Ranked embedO q items).take
              (min (max topK preEnv) items.length)).map (fun e2 => r q e2.2.1) :=
          List.mem_map_of_mem _ he0
        have hres := rescale_bounds (r q e0.2.1) _ _
          (listMin_le _ _ hsc) (le_listMax _ _ hsc)
        rw [← heq]
        exact hres
      · rw [if_neg h2] at he
        exact mem_phase1_bounds embedO q items e
          (List.mem_of_mem_take (List.mem_of_mem_take he))

/-! ## Claim C7: ordering and stability of best_matches -/

section RatEvalRerank

attribute [local semireducible] Rat.mul Rat.add Rat.sub Rat.div Rat.inv Rat.neg

/-- C7 counterexample: with an embedder scoring candidate `a` at `0` and
`b` at `1`, and a reranker scoring every pair `0`, `best_matches` returns
`b` before `a` — both with final score `0` — although the input order is
`a` before `b`: on the reranker path, equal final scores follow the
phase-1 order, not the original input order. -/
theorem c7_counterexample :
    bestMatches (some (fun t => if t = toCodes "x" then [0] else [1]))
        (some (fun _ _ => 0)) 50 (toCodes "q")
        [(toCodes "a", toCodes "x"), (toCodes "b", toCodes "y")] 2 =
      [(toCodes "b", toCodes "y", 0), (toCodes "a", toCodes "x", 0)] ∧
    scoreOf (toCodes "b", toCodes "y", (0 : ℚ)) =
      scoreOf (toCodes "a", toCodes "x", (0 : ℚ)) := by
  refine ⟨by decide, by decide⟩

end RatEvalRerank

theorem stable_take_filter (L : List (Codes × Codes × ℚ)) (n m : ℕ) (v : ℚ) :
    ∃ rest,
      (((sortKeyDesc scoreOf L).take n).take m).filter
          (fun e => scoreOf e == v) ++ rest =
        L.filter (fun e => scoreOf e == v) := by
  rw [List.take_take]
  obtain ⟨rest, hrest⟩ := filter_take_extends (sortKeyDesc scoreOf L)
    (fun e => scoreOf e == v) (min m n)
  exact ⟨rest, by rw [hrest, filter_sortKeyDesc]⟩

/-- C7 amended: `best_matches` output is sorted by descending score on
every path; when no reranker is active, candidates with equal scores keep
their original input order (the filtered-by-score subsequence of the output
is an initial segment of the same filter over the input-ordered scored
list).  On the reranker path ties follow the phase-1 order instead. -/
theorem c7_stability_amended :
    (∀ (embedO : Option (Codes → List ℚ)) (rerankO : Option (Codes → Codes → ℚ))
      (preEnv : ℕ) (q : Codes) (items : List (Codes × Codes)) (topK : ℕ),
      (bestMatches embedO rerankO preEnv q items topK).Pairwise
        (fun e1 e2 => scoreOf e2 ≤ scoreOf e1)) ∧
    (∀ (embedO : Option (Codes → List ℚ)) (preEnv : ℕ) (q : Codes)
      (items : List (Codes × Codes)) (topK : ℕ) (v : ℚ),
      ∃ rest,
        (bestMatches embedO none preEnv q items topK).filter
            (fun e => scoreOf e == v) ++ rest =
          (match embedO with
            | some f => embScored f q items
            | none => jaccardScored q items).filter
            (fun e => scoreOf e == v)) := by
  constructor
  · intro embedO rerankO preEnv q items topK
    by_cases hi : items = []
    · simp [bestMatches, hi]
    · have hp1 : (phase1Ranked embedO q items).Pairwise
          (fun e1 e2 => scoreOf e2 ≤ scoreOf e1) := by
        cases embedO <;> exact pairwise_sortKeyDesc scoreOf _
      cases rerankO with
      | none =>
        have hb : bestMatches embedO none preEnv q items topK =
            ((phase1Ranked embedO q items).take
              (min (max topK preEnv) items.length)).take topK := by
          unfold bestMatches
          rw [if_neg hi]
        rw [hb]
        exact (hp1.sublist (List.take_sublist _ _)).sublist (List.take_sublist _ _)
      | some r =>
        have hb : bestMatches embedO (some r) preEnv q items topK =
            (if 2 ≤ ((phase1Ranked embedO q items).take
                (min (max topK preEnv) items.length)).length then
              (rerankRescore r q ((phase1Ranked embedO q items).take
                (min (max topK preEnv) items.length))).take topK
            else ((phase1Ranked embedO q items).take
                (min (max topK preEnv) items.length)).take topK) := by
          unfold bestMatches
          rw [if_neg hi]
        rw [hb]
        by_cases h2 : 2 ≤ ((phase1Ranked embedO q items).take
            (min (max topK preEnv) items.length)).length
        · rw [if_pos h2, rerankRescore]
          exact (pairwise_sortKeyDesc scoreOf _).sublist (List.take_sublist _ _)
        · rw [if_neg h2]
          exact (hp1.sublist (List.take_sublist _ _)).sublist (List.take_sublist _ _)
  · intro embedO preEnv q items topK v
    cases embedO with
    | some f =>
      by_cases hi : items = []
      · subst hi
        exact ⟨[], by simp [bestMatches, embScored]⟩
      · have hb : bestMatches (some f) none preEnv q items topK =
            ((sortKeyDesc scoreOf (embScored f q items)).take
              (min (max topK preEnv) items.length)).take topK := by
          unfold bestMatches phase1Ranked
          rw [if_neg hi]
        rw [hb]
        exact stable_take_filter (embScored f q items) _ _ v
    | none =>
      by_cases hi : items = []
      · subst hi
        exact ⟨[], by simp [bestMatches, jaccardScored]⟩
      · have hb : bestMatches none none preEnv q items topK =
            ((sortKeyDesc scoreOf (jaccardScored q items)).take
              (min (max topK preEnv) items.length)).take topK := by
          unfold bestMatches phase1Ranked
          rw [if_neg hi]
        rw [hb]
        exact stable_take_filter (jaccardScored q items) _ _ v

/-! ## Claim C10: recommended courses teach a missing skill -/

/-- C10: every course returned by the local `recommend_courses` comes from
a CSV row whose comma-separated (stripped, lowercased) skills overlap the
cleaned missing-skill set in at least one element; rows with empty overlap
are never emitted, regardless of how few courses qualify. -/
theorem c10_courses_overlap :
    ∀ (missing : List Codes) (rows : List CourseRow) (topN : ℕ)
      (rec : Codes × Codes),
      rec ∈ recommendCourses missing rows topN →
      ∃ row ∈ rows, ∃ sk, row.skills = some sk ∧
        rec = (row.title, row.url) ∧
        (((sk.splitOn 44).map (fun s => lowerStr (pyStrip s))).toFinset ∩
          (missing.map (fun ms => pyStrip (lowerStr ms))).toFinset).Nonempty := by
  intro missing rows topN rec hrec
  unfold recommendCourses at hrec
  rcases List.mem_map.mp hrec with ⟨e, he, heq⟩
  have he2 : e ∈ rows.filterMap (fun row =>
      match row.skills with
      | some sk =>
        if 0 < (((sk.splitOn 44).map (fun s => lowerStr (pyStrip s))).toFinset ∩
            (missing.map (fun ms => pyStrip (lowerStr ms))).toFinset).card then
          some (row.title, row.url,
            (((sk.splitOn 44).map (fun s => lowerStr (pyStrip s))).toFinset ∩
              (missing.map (fun ms => pyStrip (lowerStr ms))).toFinset).card)
        else none
      | none => none) := by
    rw [← mem_sortKeyDesc (fun e => ((e.2.2 : ℕ) : ℚ))]
    exact List.mem_of_mem_take he
  rcases List.mem_filterMap.mp he2 with ⟨row, hrow, hmk⟩
  cases hsk : row.skills with
  | none => rw [hsk] at hmk; exact absurd hmk (by simp)
  | some sk =>
    rw [hsk] at hmk
    have hmk' : (if 0 < (((sk.splitOn 44).map
          (fun s => lowerStr (pyStrip s))).toFinset ∩
          (missing.map (fun ms => pyStrip (lowerStr ms))).toFinset).card then
        some (row.title, row.url,
          (((sk.splitOn 44).map (fun s => lowerStr (pyStrip s))).toFinset ∩
            (missing.map (fun ms => pyStrip (lowerStr ms))).toFinset).card)
      else none) = some e := hmk
    by_cases hpos : 0 < (((sk.splitOn 44).map (fun s => lowerStr (pyStrip s))).toFinset ∩
        (missing.map (fun ms => pyStrip (lowerStr ms))).toFinset).card
    · rw [if_pos hpos] at hmk'
      refine ⟨row, hrow, sk, hsk, ?_, Finset.card_pos.mp hpos⟩
      rw [← heq, (Option.some_inj.mp hmk').symm]
    · rw [if_neg hpos] at hmk'
      exact absurd hmk' (by simp)

theorem c10_courses_overlap_witness :
    ∃ row ∈ [CourseRow.mk (toCodes "Intro to Python") (toCodes "http://x")
        (some (toCodes "python,sql"))],
      ∃ sk, row.skills = some sk ∧
        ((toCodes "Intro to Python", toCodes "http://x") : Codes × Codes) =
          (row.title, row.url) ∧
        (((sk.splitOn 44).map (fun s => lowerStr (pyStrip s))).toFinset ∩
          (([toCodes "python"]).map
            (fun ms => pyStrip (lowerStr ms))).toFinset).Nonempty :=
  c10_courses_overlap [toCodes "python"]
    [CourseRow.mk (toCodes "Intro to Python") (toCodes "http://x")
      (some (toCodes "python,sql"))] 5
    (toCodes "Intro to Python", toCodes "http://x") (by decide)
